import Mathlib

/-!
Verification of the bounded-memory context assembler (`ContextManager.ts`,
`context-prompts.ts`) against its natural-language specification.

The TypeScript source is shallowly embedded: messages and facts are
structures, the JS object holding facts is an insertion-ordered
association list, JS `Array.prototype.slice` with a negative argument and
JS `Array.prototype.sort` (stable, ES2019) are modelled explicitly, and
ISO-8601 `updatedAt` timestamps are modelled as naturals (the ISO string
order used by the code is order-isomorphic to the numeric time).  The
token counter (`tiktoken`) is external to the core and is passed as an
explicit function argument, as the spec directs.
-/

namespace ContextManager

/-- Message role: `"system" | "user" | "assistant" | "tool"`. -/
inductive Role where
  | system
  | user
  | assistant
  | tool
deriving DecidableEq, Repr

/-- `Msg = { role; content }` from `ContextManager.ts`. -/
structure Msg where
  role : Role
  content : String
deriving DecidableEq, Repr

/-- `Fact = { key; value; source?; updatedAt }` from `ContextManager.ts`.
`updatedAt` (an ISO-8601 string in the source) is modelled as a natural
number; the source only ever compares timestamps via `new Date(x).getTime()`,
which is monotone in the ISO string. -/
structure Fact where
  key : String
  value : String
  source : Option String
  updatedAt : Nat
deriving DecidableEq, Repr

/-- Lexicographic code-unit comparison on character lists: the order JS `<`
and `>` impose on strings (the source keys are ASCII, where code units and
code points agree). -/
def charsLt : List Char → List Char → Bool
  | _, [] => false
  | [], _ :: _ => true
  | a :: as, b :: bs =>
      a.toNat < b.toNat || (a.toNat = b.toNat && charsLt as bs)

/-- JS string `a < b` (equivalently `b > a`). -/
def strLt (a b : String) : Bool :=
  charsLt a.data b.data

/-- JS `String.prototype.toLowerCase` restricted to the characters the core
stores (ASCII keys): lowercases each character. -/
def toLowerStr (s : String) : String :=
  ⟨s.data.map Char.toLower⟩

/-- JS `arr.slice(-n)` for `n > 0`: the last `min n len` elements. -/
def lastN (n : Nat) (l : List Msg) : List Msg :=
  l.drop (l.length - n)

/-- `addTurn(messages)`: `this.window.push(...messages)` then
`this.window = this.window.slice(-6)`. -/
def addTurn (window messages : List Msg) : List Msg :=
  lastN 6 (window ++ messages)

/-- The window state after a sequence of `addTurn` calls, starting empty. -/
def windowAfter (batches : List (List Msg)) : List Msg :=
  batches.foldl addTurn []

/-- The fact store: the JS object `facts : Record<string, Fact>` as an
insertion-ordered association list from canonical (lower-cased) key to the
stored record, matching the enumeration order of `Object.values` /
`Object.entries` for string keys. -/
abbrev Store : Type :=
  List (String × Fact)

/-- JS string-keyed object assignment `m[k] = v`: replaces in place when the
key exists (keeping its insertion position), otherwise appends.  Stated for
any value type: JS object assignment does not look at the value. -/
def setKey {β : Type} (m : List (String × β)) (k : String) (v : β) :
    List (String × β) :=
  if m.any (fun p => p.1 = k) then
    m.map (fun p => if p.1 = k then (k, v) else p)
  else
    m ++ [(k, v)]

/-- A sequence of object assignments `m[k] = v`, applied left to right. -/
def writeAll {β : Type} (m : List (String × β)) (ws : List (String × β)) :
    List (String × β) :=
  ws.foldl (fun acc w => setKey acc w.1 w.2) m

/-- The value of the last write to key `k` in `ws`, or `d` when `k` is
never written. -/
def lastVal {β : Type} (ws : List (String × β)) (k : String) (d : β) : β :=
  ws.foldl (fun acc w => if w.1 = k then w.2 else acc) d

/-- `upsertFacts(newFacts)`: for each fact,
`this.facts[f.key.toLowerCase()] = { ...f, updatedAt: new Date().toISOString() }`.
The clock readings of one call are collapsed into the explicit argument
`now` (the source reads the clock once per fact inside one loop; every
property below is stated modulo, or independent of, the timestamps). -/
def upsertFacts (m : Store) (newFacts : List Fact) (now : Nat) : Store :=
  newFacts.foldl (fun acc f => setKey acc (toLowerStr f.key) { f with updatedAt := now }) m

/-- The comparator of `getFactsAsBulletList`,
`(a, b) => (a.key > b.key ? 1 : -1)`, read as the "may stay before"
relation of a stable sort: `a` may precede `b` iff the comparator is
non-positive, i.e. iff `¬ (a.key > b.key)`. -/
def keyLe (a b : Fact) : Prop :=
  strLt b.key a.key = false

instance : DecidableRel keyLe := fun a b =>
  inferInstanceAs (Decidable (strLt b.key a.key = false))

/-- The sorted, capped, formatted bullet items of `getFactsAsBulletList`:
`Object.values(this.facts).sort(...).slice(0, max).map(f => ...)`.
JS `Array.prototype.sort` is a stable sort (ES2019); it is modelled by the
stable `List.insertionSort`. -/
def bulletItems (m : Store) (max : Nat) : List String :=
  (((m.map Prod.snd).insertionSort keyLe).take max).map
    (fun f => "- " ++ f.key ++ ": " ++ f.value)

/-- `getFactsAsBulletList(max = 30)`: the bullet items joined by `"\n"`. -/
def getFactsAsBulletList (m : Store) (max : Nat) : String :=
  String.intercalate "\n" (bulletItems m max)

/-- The comparator of `cleanupFacts`,
`(a, b) => new Date(b[1].updatedAt).getTime() - new Date(a[1].updatedAt).getTime()`,
read as the "may stay before" relation of a stable sort: `a` may precede
`b` iff the comparator is non-positive, i.e. iff `b.updatedAt ≤ a.updatedAt`
(descending recency). -/
def recencyGe (a b : String × Fact) : Prop :=
  b.2.updatedAt ≤ a.2.updatedAt

instance : DecidableRel recencyGe := fun a b =>
  inferInstanceAs (Decidable (b.2.updatedAt ≤ a.2.updatedAt))

/-- `cleanupFacts(maxFacts = 80)`: when the entry count exceeds `maxFacts`,
sort the entries by update time (most recent first, stable) and keep the
first `maxFacts`; `Object.fromEntries` then rebuilds the store in that
order.  Otherwise the store is left untouched. -/
def cleanupFacts (m : Store) (maxFacts : Nat) : Store :=
  if maxFacts < m.length then
    (m.insertionSort recencyGe).take maxFacts
  else
    m

/-- The internal state of the `ContextManager` class: static prefix, window,
session summary and fact store.  The tokenizer member `enc` is the external
token-counter capability; it is passed to `buildPrompt` as an explicit
function argument `tc`. -/
structure CM where
  staticPrefix : List Msg
  window : List Msg
  sessionSummary : String
  facts : Store
deriving DecidableEq, Repr

/-- The summary segment, `...(summaryMsg ? [summaryMsg] : [])`: present only
when `this.sessionSummary` is truthy, i.e. non-empty. -/
def summarySeg (summary : String) : List Msg :=
  if summary = "" then []
  else [⟨Role.system, "Session summary (compact):\n" ++ summary⟩]

/-- The facts segment, `...(factsBlock ? [{...}] : [])`: present only when
the rendered bullet list is non-empty. -/
def factsSeg (factsBlock : String) : List Msg :=
  if factsBlock = "" then []
  else [⟨Role.system, "Key facts:\n" ++ factsBlock⟩]

/-- `this.window.slice(-k)` as `buildPrompt` calls it, where `k` is already
a clamped natural (`-Math.max(0, k)` in the loop; the initial call passes
`-keepTurns` with nonnegative `keepTurns`).  Faithful to JS semantics: when
`k = 0` the argument is `-0 = 0`, so `slice` returns the WHOLE array; when
`k > 0` it returns the last `min k len` elements. -/
def windowSlice (w : List Msg) (k : Nat) : List Msg :=
  if k = 0 then w else w.drop (w.length - k)

/-- One candidate prompt of `buildPrompt`:
`[...staticPrefix, ...summary?, ...facts?, ...window.slice(-k), userMsg]`. -/
def candidate (cm : CM) (factsBlock : String) (k : Nat) (userMsg : Msg) : List Msg :=
  cm.staticPrefix ++ summarySeg cm.sessionSummary ++ factsSeg factsBlock
    ++ windowSlice cm.window k ++ [userMsg]

/-- The fixed Stage-2 system nudge message. -/
def nudgeMsg : Msg :=
  ⟨Role.system,
    "Context trimmed for token budget. Rely on 'Session summary' + 'Key facts' above."⟩

/-- The Stage-2 prompt.  The source places the nudge directly after the
static prefix — before the summary and facts segments — and drops the
window slice: `[...staticPrefix, nudge, ...summary?, ...facts?, userMsg]`. -/
def stage2Prompt (cm : CM) (factsBlock : String) (userMsg : Msg) : List Msg :=
  cm.staticPrefix ++ [nudgeMsg] ++ summarySeg cm.sessionSummary ++ factsSeg factsBlock
    ++ [userMsg]

/-- The Stage-1 loop of `buildPrompt`:
`while (tokens > maxInputTokens && k > 0) { k -= 2; prompt = [...]; tokens = count(prompt) }`,
returning the final `(prompt, tokens, k)`.  `k` strictly decreases each
iteration, so the loop runs at most `k` iterations; the explicit `fuel`
argument (always called with `fuel = k`, hence never exhausted) makes the
recursion structural.  `stage1_fuel_irrelevant` below proves the result
does not depend on the fuel as long as `k ≤ fuel`.  `k - 2` saturates at
0, which matches the source exactly: JS lets `k` go negative but only
reads it through `Math.max(0, k)` and the `k > 0` guard. -/
def stage1 (tc : List Msg → Nat) (cm : CM) (factsBlock : String) (userMsg : Msg)
    (maxInputTokens : Nat) : Nat → Nat → List Msg → Nat → List Msg × Nat × Nat
  | 0, k, prompt, tokens => (prompt, tokens, k)
  | fuel + 1, k, prompt, tokens =>
    if maxInputTokens < tokens ∧ 0 < k then
      let k2 := k - 2
      let p2 := candidate cm factsBlock k2 userMsg
      stage1 tc cm factsBlock userMsg maxInputTokens fuel k2 p2 (tc p2)
    else (prompt, tokens, k)

/-- The record returned by `buildPrompt`: `{ messages, approxTokens }`. -/
structure BuildResult where
  messages : List Msg
  approxTokens : Nat
deriving DecidableEq, Repr

/-- `buildPrompt(userMsg, { maxInputTokens = 3500, keepTurns = 4 })`.
The facts block is rendered through `this.getFactsAsBulletList()` with the
default cap 30; the base candidate uses `window.slice(-keepTurns)`;
Stage 1 shrinks the window slice; if the count is still over budget,
Stage 2 swaps in the nudge prompt WITHOUT re-measuring it — the returned
`approxTokens` is the `tokens` variable as Stage 1 left it. -/
def buildPrompt (tc : List Msg → Nat) (cm : CM) (userMsg : Msg)
    (maxInputTokens keepTurns : Nat) : BuildResult :=
  let factsBlock := getFactsAsBulletList cm.facts 30
  let base := candidate cm factsBlock keepTurns userMsg
  let r := stage1 tc cm factsBlock userMsg maxInputTokens keepTurns keepTurns base (tc base)
  if maxInputTokens < r.2.1 then
    ⟨stage2Prompt cm factsBlock userMsg, r.2.1⟩
  else
    ⟨r.1, r.2.1⟩

/-- JSON values as returned by `JSON.parse` (`context-prompts.ts` calls it
inside `safeParseFacts`).  A number is kept as its literal text: the core
never computes with a parsed number, so floating-point semantics stay
external to the model. -/
inductive Json where
  | jnull
  | jbool (b : Bool)
  | jnum (lit : String)
  | jstr (s : String)
  | jarr (elems : List Json)
  | jobj (fields : List (String × Json))

/-- JSON whitespace: space, tab, line feed, carriage return. -/
def isJsonWs (c : Char) : Bool :=
  c = ' ' || c = '\t' || c = '\n' || c = '\r'

/-- Drop leading JSON whitespace. -/
def skipWs : List Char → List Char
  | [] => []
  | c :: cs => if isJsonWs c then skipWs cs else c :: cs

/-- The value of a hexadecimal digit, if any. -/
def hexVal (c : Char) : Option Nat :=
  if '0' ≤ c ∧ c ≤ '9' then some (c.toNat - 48)
  else if 'a' ≤ c ∧ c ≤ 'f' then some (c.toNat - 87)
  else if 'A' ≤ c ∧ c ≤ 'F' then some (c.toNat - 55)
  else none

/-- A decimal digit? -/
def isDigit (c : Char) : Bool :=
  '0' ≤ c && c ≤ '9'

/-- The body of a JSON string after the opening quote: characters and
escapes up to the closing quote.  `acc` holds the decoded characters in
reverse. -/
def parseStringRest (acc : List Char) : List Char → Option (String × List Char)
  | [] => none
  | '"' :: cs => some (⟨acc.reverse⟩, cs)
  | '\\' :: rest =>
    match rest with
    | [] => none
    | e :: cs =>
      if e = '"' then parseStringRest ('"' :: acc) cs
      else if e = '\\' then parseStringRest ('\\' :: acc) cs
      else if e = '/' then parseStringRest ('/' :: acc) cs
      else if e = 'b' then parseStringRest (Char.ofNat 8 :: acc) cs
      else if e = 'f' then parseStringRest (Char.ofNat 12 :: acc) cs
      else if e = 'n' then parseStringRest ('\n' :: acc) cs
      else if e = 'r' then parseStringRest ('\r' :: acc) cs
      else if e = 't' then parseStringRest ('\t' :: acc) cs
      else if e = 'u' then
        match cs with
        | h1 :: h2 :: h3 :: h4 :: cs2 =>
          match hexVal h1, hexVal h2, hexVal h3, hexVal h4 with
          | some a, some b, some c, some d =>
            parseStringRest (Char.ofNat (((a * 16 + b) * 16 + c) * 16 + d) :: acc) cs2
          | _, _, _, _ => none
        | _ => none
      else none
  | c :: cs =>
    if c.toNat < 32 then none else parseStringRest (c :: acc) cs

/-- Leading run of decimal digits, and the rest. -/
def takeDigits : List Char → List Char × List Char
  | [] => ([], [])
  | c :: cs =>
    if isDigit c then
      let (ds, rest) := takeDigits cs
      (c :: ds, rest)
    else ([], c :: cs)

/-- A JSON number literal (`-? (0 | [1-9][0-9]*) (. [0-9]+)? ([eE][+-]?[0-9]+)?`),
returned as its text together with the remaining input. -/
def parseNumber (cs0 : List Char) : Option (String × List Char) :=
  let (sign, cs1) :=
    match cs0 with
    | '-' :: cs => (['-'], cs)
    | cs => (([] : List Char), cs)
  match cs1 with
  | [] => none
  | c :: cs2 =>
    if c = '0' ∨ (isDigit c ∧ c ≠ '0') then
      let (intPart, cs3) :=
        if c = '0' then ([c], cs2)
        else
          let (ds, rest) := takeDigits cs2
          (c :: ds, rest)
      let (fracPart, cs4) :=
        match cs3 with
        | '.' :: d :: cs' =>
          if isDigit d then
            let (ds, rest) := takeDigits cs'
            ('.' :: d :: ds, rest)
          else (([] : List Char), cs3)
        | _ => (([] : List Char), cs3)
      let dotMalformed : Bool :=
        fracPart.isEmpty && (match cs3 with | '.' :: _ => true | _ => false)
      if dotMalformed then none
      else
        let expResult : Option (List Char × List Char) :=
          match cs4 with
          | e :: cs' =>
            if e = 'e' ∨ e = 'E' then
              match cs' with
              | s :: d :: cs2' =>
                if (s = '+' ∨ s = '-') ∧ isDigit d then
                  let (ds, rest) := takeDigits cs2'
                  some (e :: s :: d :: ds, rest)
                else if isDigit s then
                  let (ds, rest) := takeDigits (d :: cs2')
                  some (e :: s :: ds, rest)
                else none
              | [s] =>
                if isDigit s then some ([e, s], []) else none
              | [] => none
            else some ([], cs4)
          | [] => some ([], cs4)
        match expResult with
        | none => none
        | some (expPart, rest) =>
          some (⟨sign ++ intPart ++ fracPart ++ expPart⟩, rest)
    else none

mutual

/-- `JSON.parse`'s value grammar on a character list.  `fuel` only bounds
the recursion depth; every call site supplies enough fuel, and
`jsonParse` measures it off the input length. -/
def parseValue : Nat → List Char → Option (Json × List Char)
  | 0, _ => none
  | fuel + 1, cs =>
    match skipWs cs with
    | [] => none
    | 'n' :: 'u' :: 'l' :: 'l' :: rest => some (.jnull, rest)
    | 't' :: 'r' :: 'u' :: 'e' :: rest => some (.jbool true, rest)
    | 'f' :: 'a' :: 'l' :: 's' :: 'e' :: rest => some (.jbool false, rest)
    | '"' :: rest => (parseStringRest [] rest).map (fun p => (.jstr p.1, p.2))
    | '[' :: rest =>
      match skipWs rest with
      | ']' :: r2 => some (.jarr [], r2)
      | r2 => (parseElems fuel r2).map (fun p => (.jarr p.1, p.2))
    | '{' :: rest =>
      match skipWs rest with
      | '}' :: r2 => some (.jobj [], r2)
      | r2 => (parseMembers fuel r2).map (fun p => (.jobj p.1, p.2))
    | cs' => (parseNumber cs').map (fun p => (.jnum p.1, p.2))

/-- One or more comma-separated array elements followed by `]`. -/
def parseElems : Nat → List Char → Option (List Json × List Char)
  | 0, _ => none
  | fuel + 1, cs =>
    match parseValue fuel cs with
    | none => none
    | some (v, rest) =>
      match skipWs rest with
      | ',' :: r2 => (parseElems fuel r2).map (fun p => (v :: p.1, p.2))
      | ']' :: r2 => some ([v], r2)
      | _ => none

/-- One or more comma-separated `"key": value` members followed by `}`. -/
def parseMembers : Nat → List Char → Option (List (String × Json) × List Char)
  | 0, _ => none
  | fuel + 1, cs =>
    match skipWs cs with
    | '"' :: rest =>
      match parseStringRest [] rest with
      | none => none
      | some (k, r1) =>
        match skipWs r1 with
        | ':' :: r2 =>
          match parseValue fuel r2 with
          | none => none
          | some (v, r3) =>
            match skipWs r3 with
            | ',' :: r4 => (parseMembers fuel r4).map (fun p => ((k, v) :: p.1, p.2))
            | '}' :: r4 => some ([(k, v)], r4)
            | _ => none
        | _ => none
    | _ => none

end

/-- `JSON.parse(s)`: parse one value, then require only whitespace after
it; `none` models the `SyntaxError` throw.  The fuel is ample: each unit
of depth consumed corresponds to at least one input character. -/
def jsonParse (s : String) : Option Json :=
  match parseValue (2 * s.length + 8) s.data with
  | none => none
  | some (v, rest) =>
    match skipWs rest with
    | [] => some v
    | _ => none

/-- `safeParseFacts(s)` from `context-prompts.ts`:
`try { return JSON.parse(s); } catch { return []; }` — the parsed value is
returned unvalidated; only a parse throw is replaced by `[]`. -/
def safeParseFacts (s : String) : Json :=
  match jsonParse s with
  | some v => v
  | none => .jarr []

/-- The "expected structure" of a fact-extractor response, from the spec:
a sequence of `{key, value}` records (string-valued fields). -/
def isFactRecord : Json → Bool
  | .jobj fields =>
    (fields.any fun p => p.1 = "key" && (match p.2 with | .jstr _ => true | _ => false)) &&
    (fields.any fun p => p.1 = "value" && (match p.2 with | .jstr _ => true | _ => false))
  | _ => false

/-- Is the parsed value a sequence of `{key, value}` records? -/
def isFactsList : Json → Bool
  | .jarr elems => elems.all isFactRecord
  | _ => false

/-- A fact with its `updatedAt` erased: the data C6's "modulo `updatedAt`"
comparison keeps. -/
def stripFact (f : Fact) : String × String × Option String :=
  (f.key, f.value, f.source)

/-- The store with timestamps erased, entry order and keys kept. -/
def stripStore (m : Store) : List (String × (String × String × Option String)) :=
  m.map (fun p => (p.1, stripFact p.2))

/-- The write sequence an `upsertFacts(fs)` call performs, seen modulo the
timestamp: canonical key, then the timestamp-free record. -/
def stripWrites (fs : List Fact) : List (String × (String × String × Option String)) :=
  fs.map (fun f => (toLowerStr f.key, (f.key, f.value, f.source)))

/-- A simple concrete token counter used by the closed evaluation theorems:
total content length of the messages. -/
def contentLen (l : List Msg) : Nat :=
  (l.map (fun m => m.content.length)).sum

/-- A three-message window for the Stage-1 evaluation theorems. -/
def exWindow3 : List Msg :=
  [⟨Role.user, "m1"⟩, ⟨Role.assistant, "m2"⟩, ⟨Role.user, "m3"⟩]

/-- Concrete manager state: empty prefix, three window messages, no summary,
no facts. -/
def exCM1 : CM :=
  ⟨[], exWindow3, "", []⟩

/-- Concrete manager state with a one-message static prefix, a non-empty
summary and one stored fact. -/
def exCM2 : CM :=
  ⟨[⟨Role.system, "p"⟩], [], "s", [("k", ⟨"k", "v", none, 0⟩)]⟩

/-- Concrete user message for the evaluation theorems. -/
def exUser : Msg :=
  ⟨Role.user, "u"⟩

/-! ### Order lemmas for the two sort comparators -/

theorem charsLt_nil_right (x : List Char) : charsLt x [] = false := by
  cases x <;> simp [charsLt]

theorem charsLt_asymm : ∀ x y, charsLt x y = true → charsLt y x = false := by
  intro x
  induction x with
  | nil =>
    intro y h
    exact charsLt_nil_right y
  | cons a as ih =>
    intro y h
    cases y with
    | nil => simp [charsLt_nil_right] at h
    | cons b bs =>
      simp only [charsLt, Bool.or_eq_true, Bool.and_eq_true, decide_eq_true_eq] at h
      simp only [charsLt, Bool.or_eq_false_iff, Bool.and_eq_false_iff,
        decide_eq_false_iff_not]
      rcases h with h | ⟨he, hr⟩
      · exact ⟨by omega, Or.inl (by omega)⟩
      · exact ⟨by omega, Or.inr (ih bs hr)⟩

theorem charsLt_le_trans :
    ∀ x y z, charsLt y x = false → charsLt z y = false → charsLt z x = false := by
  intro x
  induction x with
  | nil =>
    intro y z hyx hzy
    exact charsLt_nil_right z
  | cons a as ih =>
    intro y z hyx hzy
    cases y with
    | nil => simp [charsLt] at hyx
    | cons b bs =>
      cases z with
      | nil => simp [charsLt] at hzy
      | cons c cs =>
        simp only [charsLt, Bool.or_eq_false_iff, Bool.and_eq_false_iff,
          decide_eq_false_iff_not] at hyx hzy ⊢
        obtain ⟨h1, h2⟩ := hyx
        obtain ⟨h3, h4⟩ := hzy
        refine ⟨by omega, ?_⟩
        rcases h2 with h2 | h2
        · exact Or.inl (by omega)
        · rcases h4 with h4 | h4
          · exact Or.inl (by omega)
          · exact Or.inr (ih bs cs h2 h4)

instance : IsTrans Fact keyLe :=
  ⟨fun a b c hab hbc => charsLt_le_trans a.key.data b.key.data c.key.data hab hbc⟩

instance : IsTotal Fact keyLe := by
  constructor
  intro a b
  cases hv : strLt b.key a.key with
  | false => exact Or.inl hv
  | true => exact Or.inr (charsLt_asymm b.key.data a.key.data hv)

instance : IsTrans (String × Fact) recencyGe :=
  ⟨fun _ _ _ hab hbc => Nat.le_trans hbc hab⟩

instance : IsTotal (String × Fact) recencyGe :=
  ⟨fun a b => Nat.le_total b.2.updatedAt a.2.updatedAt⟩

example : strLt "a" "b" = true := by decide
example : strLt "b" "a" = false := by decide
example : toLowerStr "Name" = "name" := by decide
example : addTurn [⟨Role.user, "1"⟩, ⟨Role.user, "2"⟩, ⟨Role.user, "3"⟩, ⟨Role.user, "4"⟩, ⟨Role.user, "5"⟩]
    [⟨Role.user, "6"⟩, ⟨Role.user, "7"⟩] =
    [⟨Role.user, "2"⟩, ⟨Role.user, "3"⟩, ⟨Role.user, "4"⟩, ⟨Role.user, "5"⟩, ⟨Role.user, "6"⟩, ⟨Role.user, "7"⟩] := by
  decide
example : getFactsAsBulletList [("b", ⟨"b", "2", none, 0⟩), ("a", ⟨"a", "1", none, 1⟩)] 30 =
    "- a: 1\n- b: 2" := by decide
example : cleanupFacts [("a", ⟨"a", "1", none, 5⟩), ("b", ⟨"b", "2", none, 9⟩), ("c", ⟨"c", "3", none, 7⟩)] 2 =
    [("b", ⟨"b", "2", none, 9⟩), ("c", ⟨"c", "3", none, 7⟩)] := by decide

/-! ### Window lemmas (C5) -/

theorem lastN_length_le (n : Nat) (l : List Msg) : (lastN n l).length ≤ n := by
  simp only [lastN, List.length_drop]
  omega

theorem lastN_append_left (n : Nat) (t s : List Msg) (h : n ≤ s.length) :
    lastN n (t ++ s) = lastN n s := by
  unfold lastN
  have hidx : (t ++ s).length - n = t.length + (s.length - n) := by
    rw [List.length_append]; omega
  rw [hidx, List.drop_append]

theorem lastN_append_lastN (n : Nat) (a b : List Msg) :
    lastN n (lastN n a ++ b) = lastN n (a ++ b) := by
  by_cases h : a.length ≤ n
  · have h0 : a.length - n = 0 := Nat.sub_eq_zero_of_le h
    simp [lastN, h0]
  · have hs : (a.drop (a.length - n)).length = n := by
      rw [List.length_drop]; omega
    conv_rhs => rw [← List.take_append_drop (a.length - n) a, List.append_assoc]
    exact (lastN_append_left n _ _
      (by simp only [lastN, List.length_append, List.length_drop]; omega)).symm

theorem windowAfter_from (batches : List (List Msg)) :
    ∀ w : List Msg, List.foldl addTurn (lastN 6 w) batches = lastN 6 (w ++ batches.flatten) := by
  induction batches with
  | nil =>
    intro w
    simp [lastN]
  | cons b bs ih =>
    intro w
    simp only [List.foldl_cons, List.flatten_cons]
    rw [show addTurn (lastN 6 w) b = lastN 6 (lastN 6 w ++ b) from rfl,
      lastN_append_lastN, ih (w ++ b), List.append_assoc]

/-- C5: for every sequence of `addTurn` calls with arbitrary message batches,
the window after the calls holds at most 6 messages, and the retained
messages are exactly the most recent ones of everything ever appended, in
their original relative order — the last-6 suffix of the concatenation of
all batches. -/
theorem c5_window_bound (batches : List (List Msg)) :
    (windowAfter batches).length ≤ 6 ∧
      windowAfter batches = lastN 6 batches.flatten := by
  have he : windowAfter batches = lastN 6 batches.flatten := by
    have h := windowAfter_from batches []
    simpa [windowAfter, lastN] using h
  exact ⟨he ▸ lastN_length_le 6 batches.flatten, he⟩

/-! ### Fact-store lemmas (C6) -/

theorem any_key_setKey {β : Type} (m : List (String × β)) (k : String) (v : β) :
    (setKey m k v).any (fun p => p.1 = k) = true := by
  unfold setKey
  by_cases h : m.any (fun p => p.1 = k) = true
  · rw [if_pos h]
    rw [List.any_eq_true] at h ⊢
    obtain ⟨p, hp, hpk⟩ := h
    refine ⟨(k, v), List.mem_map.mpr ⟨p, hp, ?_⟩, by simp⟩
    simp only [decide_eq_true_eq] at hpk
    simp [hpk]
  · rw [if_neg h]
    simp

theorem setKey_setKey {β : Type} (m : List (String × β)) (k : String) (v w : β) :
    setKey (setKey m k v) k w = setKey m k w := by
  rw [show setKey (setKey m k v) k w =
      (setKey m k v).map (fun p => if p.1 = k then (k, w) else p) from by
    rw [setKey, if_pos (any_key_setKey m k v)]]
  unfold setKey
  by_cases h : m.any (fun p => p.1 = k) = true
  · rw [if_pos h, if_pos h, List.map_map]
    apply List.map_congr_left
    intro p hp
    by_cases hpk : p.1 = k <;> simp [Function.comp, hpk]
  · rw [if_neg h, if_neg h, List.map_append]
    have hnone : ∀ p ∈ m, p.1 ≠ k := by
      intro p hp hk
      exact h (List.any_eq_true.mpr ⟨p, hp, by simp [hk]⟩)
    have hm : m.map (fun p => if p.1 = k then (k, w) else p) = m := by
      conv_rhs => rw [← List.map_id m]
      apply List.map_congr_left
      intro p hp
      simp [hnone p hp]
    rw [hm]
    simp

theorem keys_setKey_replace {β : Type} (m : List (String × β)) (k : String) (v : β)
    (h : m.any (fun p => p.1 = k) = true) :
    (setKey m k v).map Prod.fst = m.map Prod.fst := by
  rw [setKey, if_pos h, List.map_map]
  apply List.map_congr_left
  intro p hp
  by_cases hpk : p.1 = k <;> simp [Function.comp, hpk]

theorem stripStore_setKey_congr (m : Store) (k : String) (v w : Fact)
    (h : stripFact v = stripFact w) :
    stripStore (setKey m k v) = stripStore (setKey m k w) := by
  unfold setKey stripStore
  by_cases hc : m.any (fun p => p.1 = k) = true
  · rw [if_pos hc, if_pos hc, List.map_map, List.map_map]
    apply List.map_congr_left
    intro p hp
    by_cases hpk : p.1 = k <;> simp [Function.comp, hpk, h]
  · rw [if_neg hc, if_neg hc]
    simp [h]

theorem setKey_mem_key_eq {β : Type} (m : List (String × β)) (k : String) (v : β) :
    ∀ q ∈ setKey m k v, q.1 = k → q.2 = v := by
  intro q hq hk
  unfold setKey at hq
  by_cases hc : m.any (fun p => p.1 = k) = true
  · rw [if_pos hc] at hq
    obtain ⟨p, hp, hpq⟩ := List.mem_map.mp hq
    by_cases hpk : p.1 = k
    · rw [if_pos hpk] at hpq
      rw [← hpq]
    · rw [if_neg hpk] at hpq
      rw [← hpq] at hk
      exact absurd hk hpk
  · rw [if_neg hc] at hq
    rcases List.mem_append.mp hq with h | h
    · exact absurd (List.any_eq_true.mpr ⟨q, h, by simp [hk]⟩) hc
    · rw [List.mem_singleton] at h
      rw [h]

theorem setKey_mem_ne {β : Type} (m : List (String × β)) (k : String) (v : β) :
    ∀ q ∈ setKey m k v, q.1 ≠ k → q ∈ m := by
  intro q hq hne
  unfold setKey at hq
  by_cases hc : m.any (fun p => p.1 = k) = true
  · rw [if_pos hc] at hq
    obtain ⟨p, hp, hpq⟩ := List.mem_map.mp hq
    by_cases hpk : p.1 = k
    · rw [if_pos hpk] at hpq
      rw [← hpq] at hne
      simp at hne
    · rw [if_neg hpk] at hpq
      rw [← hpq]
      exact hp
  · rw [if_neg hc] at hq
    rcases List.mem_append.mp hq with h | h
    · exact h
    · rw [List.mem_singleton] at h
      rw [h] at hne
      simp at hne

theorem contains_setKey_of_contains {β : Type} (m : List (String × β)) (k j : String)
    (v : β) (h : m.any (fun p => p.1 = j) = true) :
    (setKey m k v).any (fun p => p.1 = j) = true := by
  obtain ⟨p, hp, hpj⟩ := List.any_eq_true.mp h
  simp only [decide_eq_true_eq] at hpj
  unfold setKey
  by_cases hc : m.any (fun p => p.1 = k) = true
  · rw [if_pos hc, List.any_eq_true]
    by_cases hpk : p.1 = k
    · refine ⟨(k, v), List.mem_map.mpr ⟨p, hp, by simp [hpk]⟩, ?_⟩
      simp [← hpk, hpj]
    · exact ⟨p, List.mem_map.mpr ⟨p, hp, by simp [hpk]⟩, by simp [hpj]⟩
  · rw [if_neg hc]
    exact List.any_eq_true.mpr ⟨p, List.mem_append_left _ hp, by simp [hpj]⟩

theorem contains_writeAll_of_contains {β : Type} :
    ∀ (ws : List (String × β)) (m : List (String × β)) (j : String),
      m.any (fun p => p.1 = j) = true →
      (writeAll m ws).any (fun p => p.1 = j) = true := by
  intro ws
  induction ws with
  | nil => intro m j h; exact h
  | cons a ws ih =>
    intro m j h
    exact ih (setKey m a.1 a.2) j (contains_setKey_of_contains m a.1 j a.2 h)

theorem writeAll_contains_own {β : Type} :
    ∀ (ws : List (String × β)) (m : List (String × β)) (w : String × β), w ∈ ws →
      (writeAll m ws).any (fun p => p.1 = w.1) = true := by
  intro ws
  induction ws with
  | nil =>
    intro m w h
    simp at h
  | cons a ws ih =>
    intro m w hw
    rcases List.mem_cons.mp hw with h | h
    · rw [h]
      exact contains_writeAll_of_contains ws (setKey m a.1 a.2) a.1
        (any_key_setKey m a.1 a.2)
    · exact ih (setKey m a.1 a.2) w h

theorem writeAll_update_only {β : Type} :
    ∀ (ws : List (String × β)) (m : List (String × β)),
      (∀ w ∈ ws, m.any (fun p => p.1 = w.1) = true) →
      writeAll m ws = m.map (fun q => (q.1, lastVal ws q.1 q.2)) := by
  intro ws
  induction ws with
  | nil =>
    intro m _
    conv_lhs => rw [← List.map_id m]
    apply List.map_congr_left
    intro q _
    rfl
  | cons a ws ih =>
    intro m hall
    have ha : m.any (fun p => p.1 = a.1) = true := hall a (List.mem_cons_self a ws)
    have hall2 : ∀ w ∈ ws, (setKey m a.1 a.2).any (fun p => p.1 = w.1) = true :=
      fun w hw =>
        contains_setKey_of_contains m a.1 w.1 a.2 (hall w (List.mem_cons_of_mem a hw))
    have hstep : writeAll m (a :: ws) = writeAll (setKey m a.1 a.2) ws := rfl
    have hset : setKey m a.1 a.2 = m.map (fun p => if p.1 = a.1 then (a.1, a.2) else p) := by
      rw [setKey, if_pos ha]
    rw [hstep, ih _ hall2, hset, List.map_map]
    apply List.map_congr_left
    intro p _
    by_cases hpk : p.1 = a.1
    · simp only [Function.comp, if_pos hpk]
      rw [show lastVal (a :: ws) p.1 p.2 = lastVal ws p.1 a.2 from by
        simp only [lastVal, List.foldl_cons]
        rw [if_pos (Eq.symm hpk)]]
      rw [hpk]
    · simp only [Function.comp, if_neg hpk]
      rw [show lastVal (a :: ws) p.1 p.2 = lastVal ws p.1 p.2 from by
        simp only [lastVal, List.foldl_cons]
        rw [if_neg (fun h => hpk (Eq.symm h))]]

theorem writeAll_snoc {β : Type} (m ws : List (String × β)) (w : String × β) :
    writeAll m (ws ++ [w]) = setKey (writeAll m ws) w.1 w.2 := by
  simp [writeAll, List.foldl_append]

theorem lastVal_snoc {β : Type} (ws : List (String × β)) (w : String × β)
    (k : String) (d : β) :
    lastVal (ws ++ [w]) k d = if w.1 = k then w.2 else lastVal ws k d := by
  simp [lastVal, List.foldl_append]

theorem writeAll_mem_lastVal {β : Type} :
    ∀ (ws : List (String × β)) (m : List (String × β)) (q : String × β),
      q ∈ writeAll m ws → lastVal ws q.1 q.2 = q.2 := by
  intro ws
  induction ws using List.reverseRecOn with
  | nil => intro m q _; rfl
  | append_singleton ws w ih =>
    intro m q hq
    rw [writeAll_snoc] at hq
    rw [lastVal_snoc]
    by_cases hk : w.1 = q.1
    · rw [if_pos hk]
      exact (setKey_mem_key_eq (writeAll m ws) w.1 w.2 q hq hk.symm).symm
    · rw [if_neg hk]
      exact ih m q (setKey_mem_ne (writeAll m ws) w.1 w.2 q hq (fun h => hk h.symm))

/-- Replaying an identical write sequence is the identity: the second pass
finds every key present and rewrites each record to the value the first
pass already left there, in place. -/
theorem writeAll_idem {β : Type} (m ws : List (String × β)) :
    writeAll (writeAll m ws) ws = writeAll m ws := by
  rw [writeAll_update_only ws (writeAll m ws) (fun w hw => writeAll_contains_own ws m w hw)]
  conv_rhs => rw [← List.map_id (writeAll m ws)]
  apply List.map_congr_left
  intro q hq
  rw [writeAll_mem_lastVal ws m q hq]
  rfl

theorem stripStore_setKey (m : Store) (k : String) (v : Fact) :
    stripStore (setKey m k v) = setKey (stripStore m) k (stripFact v) := by
  have hany : (stripStore m).any (fun p => p.1 = k) = m.any (fun p => p.1 = k) := by
    induction m with
    | nil => rfl
    | cons a m ih =>
      have hcons : stripStore (a :: m) = (a.1, stripFact a.2) :: stripStore m := rfl
      rw [hcons, List.any_cons, List.any_cons, ih]
  by_cases hc : m.any (fun p => p.1 = k) = true
  · rw [setKey, if_pos hc, setKey, if_pos (by rw [hany]; exact hc)]
    rw [stripStore, stripStore, List.map_map, List.map_map]
    apply List.map_congr_left
    intro p _
    by_cases hpk : p.1 = k <;> simp [Function.comp, hpk]
  · rw [setKey, if_neg hc, setKey, if_neg (by rw [hany]; exact hc)]
    rw [stripStore, stripStore, List.map_append]
    rfl

theorem stripStore_upsertFacts (fs : List Fact) :
    ∀ (m : Store) (t : Nat),
      stripStore (upsertFacts m fs t) = writeAll (stripStore m) (stripWrites fs) := by
  induction fs with
  | nil => intro m t; rfl
  | cons f fs ih =>
    intro m t
    have hstep : upsertFacts m (f :: fs) t =
        upsertFacts (setKey m (toLowerStr f.key) { f with updatedAt := t }) fs t := rfl
    rw [hstep, ih, stripStore_setKey]
    rfl

/-- C6: `upsertFacts` is idempotent on identical repeated `{key, value}`
input except for the `updatedAt` timestamp — replaying any batch of facts
(at a possibly different time `t2`) leaves the store unchanged modulo
timestamps — and two upserts whose keys differ only by letter case write
the same canonical record: the second upsert adds no key, and from the
empty store exactly one record remains. -/
theorem c6_upsert_idempotent :
    (∀ (m : Store) (fs : List Fact) (t1 t2 : Nat),
       stripStore (upsertFacts (upsertFacts m fs t1) fs t2) =
         stripStore (upsertFacts m fs t1)) ∧
    (∀ (m : Store) (f g : Fact) (t1 t2 : Nat),
       toLowerStr f.key = toLowerStr g.key →
         (upsertFacts (upsertFacts m [f] t1) [g] t2).map Prod.fst =
           (upsertFacts m [f] t1).map Prod.fst) ∧
    (∀ (f g : Fact) (t1 t2 : Nat),
       toLowerStr f.key = toLowerStr g.key →
         (upsertFacts (upsertFacts ([] : Store) [f] t1) [g] t2).length = 1) := by
  refine ⟨?_, ?_, ?_⟩
  · intro m fs t1 t2
    rw [stripStore_upsertFacts, stripStore_upsertFacts]
    exact writeAll_idem (stripStore m) (stripWrites fs)
  · intro m f g t1 t2 h
    simp only [upsertFacts, List.foldl_cons, List.foldl_nil]
    rw [← h]
    exact keys_setKey_replace _ _ _ (any_key_setKey m (toLowerStr f.key) _)
  · intro f g t1 t2 h
    simp only [upsertFacts, List.foldl_cons, List.foldl_nil]
    rw [← h]
    have h1 : setKey ([] : Store) (toLowerStr f.key) { f with updatedAt := t1 } =
        [(toLowerStr f.key, { f with updatedAt := t1 })] := by
      simp [setKey]
    rw [h1, setKey, if_pos (by simp)]
    simp

/-- Witness for C6 at a concrete input: upserting `"Name"` then `"name"`
leaves exactly one stored record, the idempotence equation holds at a
concrete store, and the second upsert adds no key. -/
theorem c6_upsert_idempotent_witness :
    stripStore (upsertFacts (upsertFacts ([] : Store) [⟨"Name", "v", none, 0⟩] 1)
        [⟨"Name", "v", none, 0⟩] 2) =
      stripStore (upsertFacts ([] : Store) [⟨"Name", "v", none, 0⟩] 1) ∧
    (upsertFacts (upsertFacts ([] : Store) [⟨"Name", "v", none, 0⟩] 1)
        [⟨"name", "w", none, 0⟩] 2).length = 1 :=
  ⟨c6_upsert_idempotent.1 [] [⟨"Name", "v", none, 0⟩] 1 2,
   c6_upsert_idempotent.2.2 ⟨"Name", "v", none, 0⟩ ⟨"name", "w", none, 0⟩ 1 2 (by decide)⟩

/-! ### Cleanup lemmas (C7) -/

/-- C7: on a store holding more than `maxFacts` records, `cleanupFacts`
leaves exactly `maxFacts` records and every discarded record's `updatedAt`
is at most every kept record's `updatedAt`; at or below the limit the
store is returned unchanged. -/
theorem c7_cleanup (m : Store) (maxFacts : Nat) :
    (maxFacts < m.length →
       (cleanupFacts m maxFacts).length = maxFacts ∧
       ∃ dropped : Store,
         (cleanupFacts m maxFacts ++ dropped).Perm m ∧
         ∀ x ∈ cleanupFacts m maxFacts, ∀ y ∈ dropped,
           y.2.updatedAt ≤ x.2.updatedAt) ∧
    (m.length ≤ maxFacts → cleanupFacts m maxFacts = m) := by
  constructor
  · intro h
    have hperm : (m.insertionSort recencyGe).Perm m := List.perm_insertionSort recencyGe m
    have hlen : (m.insertionSort recencyGe).length = m.length := hperm.length_eq
    have hcf : cleanupFacts m maxFacts = (m.insertionSort recencyGe).take maxFacts := by
      rw [cleanupFacts, if_pos h]
    constructor
    · rw [hcf, List.length_take, hlen]
      omega
    · refine ⟨(m.insertionSort recencyGe).drop maxFacts, ?_, ?_⟩
      · rw [hcf, List.take_append_drop]
        exact hperm
      · intro x hx y hy
        have hsorted : List.Pairwise recencyGe (m.insertionSort recencyGe) :=
          List.sorted_insertionSort recencyGe m
        have hsplit : List.Pairwise recencyGe
            ((m.insertionSort recencyGe).take maxFacts ++
              (m.insertionSort recencyGe).drop maxFacts) := by
          rw [List.take_append_drop]
          exact hsorted
        have hrel := (List.pairwise_append.mp hsplit).2.2
        rw [hcf] at hx
        exact hrel x hx y hy
  · intro h
    rw [cleanupFacts, if_neg (by omega)]

/-- Witness for C7 at concrete inputs: both the over-limit branch (two
records, limit one) and the at-limit branch (one record, limit five). -/
theorem c7_cleanup_witness :
    ((cleanupFacts [("a", ⟨"a", "1", none, 5⟩), ("b", ⟨"b", "2", none, 9⟩)] 1).length = 1 ∧
       ∃ dropped : Store,
         (cleanupFacts [("a", ⟨"a", "1", none, 5⟩), ("b", ⟨"b", "2", none, 9⟩)] 1 ++
             dropped).Perm [("a", ⟨"a", "1", none, 5⟩), ("b", ⟨"b", "2", none, 9⟩)] ∧
         ∀ x ∈ cleanupFacts [("a", ⟨"a", "1", none, 5⟩), ("b", ⟨"b", "2", none, 9⟩)] 1,
           ∀ y ∈ dropped, y.2.updatedAt ≤ x.2.updatedAt) ∧
    cleanupFacts [("a", ⟨"a", "1", none, 5⟩)] 5 = [("a", ⟨"a", "1", none, 5⟩)] :=
  ⟨(c7_cleanup [("a", ⟨"a", "1", none, 5⟩), ("b", ⟨"b", "2", none, 9⟩)] 1).1 (by decide),
   (c7_cleanup [("a", ⟨"a", "1", none, 5⟩)] 5).2 (by decide)⟩

/-! ### Bullet-list lemmas (C8) -/

theorem char_eq_of_toNat_eq {a b : Char} (h : a.toNat = b.toNat) : a = b :=
  Char.eq_of_val_eq (UInt32.ext h)

theorem string_eq_of_data_eq {s t : String} (h : s.data = t.data) : s = t := by
  cases s
  cases t
  exact congrArg String.mk h

theorem charsLt_eq_of_both_false :
    ∀ x y, charsLt y x = false → charsLt x y = false → x = y := by
  intro x
  induction x with
  | nil =>
    intro y h1 h2
    cases y with
    | nil => rfl
    | cons b bs => simp [charsLt] at h2
  | cons a as ih =>
    intro y h1 h2
    cases y with
    | nil => simp [charsLt] at h1
    | cons b bs =>
      simp only [charsLt, Bool.or_eq_false_iff, Bool.and_eq_false_iff,
        decide_eq_false_iff_not] at h1 h2
      obtain ⟨hba, h1r⟩ := h1
      obtain ⟨hab, h2r⟩ := h2
      have hn : a.toNat = b.toNat := by omega
      have hc : a = b := char_eq_of_toNat_eq hn
      rcases h1r with h | htl1
      · exact (h hn.symm).elim
      · rcases h2r with h | htl2
        · exact (h hn).elim
        · rw [hc, ih bs htl1 htl2]

theorem strLt_of_keyLe_of_ne {a b : Fact} (hle : keyLe a b) (hne : a.key ≠ b.key) :
    strLt a.key b.key = true := by
  cases hv : strLt a.key b.key with
  | true => rfl
  | false =>
    exact absurd
      (string_eq_of_data_eq (charsLt_eq_of_both_false a.key.data b.key.data hle hv)) hne

/-- C8: `getFactsAsBulletList(max)` renders at most `max` lines; every line
is `"- {key}: {value}"` for a stored record, with the raw stored key; and,
the stored raw keys being pairwise distinct, the selected facts are in
strictly ascending key order. -/
theorem c8_bullet_list (m : Store) (max : Nat) :
    (bulletItems m max).length ≤ max ∧
    (∀ line ∈ bulletItems m max, ∃ p ∈ m, line = "- " ++ p.2.key ++ ": " ++ p.2.value) ∧
    (((m.map Prod.snd).map Fact.key).Nodup →
       (((m.map Prod.snd).insertionSort keyLe).take max).Pairwise
         (fun a b => strLt a.key b.key = true)) := by
  refine ⟨?_, ?_, ?_⟩
  · simp only [bulletItems, List.length_map, List.length_take]
    omega
  · intro line hline
    simp only [bulletItems, List.mem_map] at hline
    obtain ⟨f, hf, hfmt⟩ := hline
    have hf2 : f ∈ (m.map Prod.snd).insertionSort keyLe :=
      (List.take_sublist max _).subset hf
    have hf3 : f ∈ m.map Prod.snd := (List.perm_insertionSort keyLe _).subset hf2
    obtain ⟨p, hp, hpf⟩ := List.mem_map.mp hf3
    exact ⟨p, hp, by rw [← hfmt, hpf]⟩
  · intro hnodup
    have hsorted : List.Pairwise keyLe ((m.map Prod.snd).insertionSort keyLe) :=
      List.sorted_insertionSort keyLe (m.map Prod.snd)
    have hperm : ((m.map Prod.snd).insertionSort keyLe).Perm (m.map Prod.snd) :=
      List.perm_insertionSort keyLe (m.map Prod.snd)
    have hnodup2 : (((m.map Prod.snd).insertionSort keyLe).map Fact.key).Nodup :=
      ((hperm.map Fact.key).nodup_iff).mpr hnodup
    have hpair_ne : ((m.map Prod.snd).insertionSort keyLe).Pairwise
        (fun a b => a.key ≠ b.key) := by
      rw [List.Nodup, List.pairwise_map] at hnodup2
      exact hnodup2
    have hcomb := (hsorted.and hpair_ne).imp
      (fun h => strLt_of_keyLe_of_ne h.1 h.2)
    exact List.Pairwise.sublist (List.take_sublist max _) hcomb

/-- Witness for C8: the spec's own example store `{b: 2, a: 1}` has pairwise
distinct keys, and the theorem yields the strictly ascending selection. -/
theorem c8_bullet_list_witness :
    ((([("b", ⟨"b", "2", none, 0⟩), ("a", ⟨"a", "1", none, 0⟩)].map
          Prod.snd).insertionSort keyLe).take 30).Pairwise
      (fun a b => strLt a.key b.key = true) :=
  (c8_bullet_list [("b", ⟨"b", "2", none, 0⟩), ("a", ⟨"a", "1", none, 0⟩)] 30).2.2
    (by decide)

/-! ### Stage-1 and buildPrompt lemmas (C1–C4, C10) -/

theorem bulletItems_length_le (m : Store) (max : Nat) :
    (bulletItems m max).length ≤ max := by
  simp only [bulletItems, List.length_map, List.length_take]
  omega

theorem stage1_k_zero (tc : List Msg → Nat) (cm : CM) (fb : String) (u : Msg)
    (maxT : Nat) (fuel : Nat) (p : List Msg) (t : Nat) :
    stage1 tc cm fb u maxT fuel 0 p t = (p, t, 0) := by
  cases fuel with
  | zero => rfl
  | succ f => simp [stage1]

/-- The fuel of `stage1` is irrelevant as long as it is at least `k`: the
source's `while` loop runs at most `k` iterations. -/
theorem stage1_fuel_irrelevant (tc : List Msg → Nat) (cm : CM) (fb : String) (u : Msg)
    (maxT : Nat) :
    ∀ f1 f2 k p t, k ≤ f1 → k ≤ f2 →
      stage1 tc cm fb u maxT f1 k p t = stage1 tc cm fb u maxT f2 k p t := by
  intro f1
  induction f1 with
  | zero =>
    intro f2 k p t h1 h2
    have hk : k = 0 := Nat.le_zero.mp h1
    rw [hk, stage1_k_zero, stage1_k_zero]
  | succ f1 ih =>
    intro f2 k p t h1 h2
    by_cases hk : k = 0
    · rw [hk, stage1_k_zero, stage1_k_zero]
    · cases f2 with
      | zero => omega
      | succ f2 =>
        simp only [stage1]
        by_cases hc : maxT < t ∧ 0 < k
        · rw [if_pos hc, if_pos hc]
          exact ih f2 (k - 2) (candidate cm fb (k - 2) u)
            (tc (candidate cm fb (k - 2) u)) (by omega) (by omega)
        · rw [if_neg hc, if_neg hc]

/-- Every Stage-1 state is a `candidate` with its own measured count: the
loop, seeded with the candidate at slice size `j ≤ k` and enough fuel,
ends at a candidate at some slice size `j2 ≤ k` paired with that
candidate's measured count. -/
theorem stage1_shape (tc : List Msg → Nat) (cm : CM) (fb : String) (u : Msg)
    (maxT : Nat) :
    ∀ (fuel k j : Nat), k ≤ fuel → j ≤ k →
      ∃ j2 k2, j2 ≤ k ∧
        stage1 tc cm fb u maxT fuel k (candidate cm fb j u)
            (tc (candidate cm fb j u)) =
          (candidate cm fb j2 u, tc (candidate cm fb j2 u), k2) := by
  intro fuel
  induction fuel with
  | zero =>
    intro k j hk hj
    exact ⟨j, k, hj, rfl⟩
  | succ fuel ih =>
    intro k j hk hj
    by_cases hc : maxT < tc (candidate cm fb j u) ∧ 0 < k
    · obtain ⟨j2, k2, hj2, heq⟩ := ih (k - 2) (k - 2) (by omega) le_rfl
      refine ⟨j2, k2, by omega, ?_⟩
      simp only [stage1]
      rw [if_pos hc]
      exact heq
    · refine ⟨j, k, hj, ?_⟩
      simp only [stage1]
      rw [if_neg hc]

/-- `buildPrompt` returns either a Stage-0/1 candidate (within budget)
together with its own measured count, or the Stage-2 nudge prompt together
with the measured count of the last over-budget candidate. -/
theorem buildPrompt_cases (tc : List Msg → Nat) (cm : CM) (u : Msg) (maxT kt : Nat) :
    ∃ j, j ≤ kt ∧
      ((buildPrompt tc cm u maxT kt =
          ⟨candidate cm (getFactsAsBulletList cm.facts 30) j u,
            tc (candidate cm (getFactsAsBulletList cm.facts 30) j u)⟩ ∧
          tc (candidate cm (getFactsAsBulletList cm.facts 30) j u) ≤ maxT) ∨
        (buildPrompt tc cm u maxT kt =
          ⟨stage2Prompt cm (getFactsAsBulletList cm.facts 30) u,
            tc (candidate cm (getFactsAsBulletList cm.facts 30) j u)⟩ ∧
          maxT < tc (candidate cm (getFactsAsBulletList cm.facts 30) j u))) := by
  obtain ⟨j, k2, hj, heq⟩ :=
    stage1_shape tc cm (getFactsAsBulletList cm.facts 30) u maxT kt kt kt le_rfl le_rfl
  refine ⟨j, hj, ?_⟩
  have hbp : buildPrompt tc cm u maxT kt =
      if maxT < tc (candidate cm (getFactsAsBulletList cm.facts 30) j u) then
        ⟨stage2Prompt cm (getFactsAsBulletList cm.facts 30) u,
          tc (candidate cm (getFactsAsBulletList cm.facts 30) j u)⟩
      else
        ⟨candidate cm (getFactsAsBulletList cm.facts 30) j u,
          tc (candidate cm (getFactsAsBulletList cm.facts 30) j u)⟩ := by
    unfold buildPrompt
    dsimp only
    rw [heq]
  by_cases hover : maxT < tc (candidate cm (getFactsAsBulletList cm.facts 30) j u)
  · right
    rw [hbp, if_pos hover]
    exact ⟨rfl, hover⟩
  · left
    rw [hbp, if_neg hover]
    exact ⟨rfl, by omega⟩

/-- C4: for every state, token counter, budget and window-slice start, the
sequence returned by `buildPrompt` ends with the new user message itself —
the user's message is never dropped or modified by any degradation
stage. -/
theorem c4_user_message_last (tc : List Msg → Nat) (cm : CM) (u : Msg) (maxT kt : Nat) :
    (buildPrompt tc cm u maxT kt).messages.getLast? = some u ∧
    ∃ l, (buildPrompt tc cm u maxT kt).messages = l ++ [u] := by
  obtain ⟨j, _, hcase⟩ := buildPrompt_cases tc cm u maxT kt
  have hsplit : ∃ l, (buildPrompt tc cm u maxT kt).messages = l ++ [u] := by
    rcases hcase with ⟨he, _⟩ | ⟨he, _⟩
    · rw [he]
      exact ⟨cm.staticPrefix ++ (summarySeg cm.sessionSummary ++
        (factsSeg (getFactsAsBulletList cm.facts 30) ++ windowSlice cm.window j)),
        by simp [candidate]⟩
    · rw [he]
      exact ⟨cm.staticPrefix ++ ([nudgeMsg] ++ (summarySeg cm.sessionSummary ++
        factsSeg (getFactsAsBulletList cm.facts 30))),
        by simp [stage2Prompt]⟩
  obtain ⟨l, hl⟩ := hsplit
  refine ⟨?_, ⟨l, hl⟩⟩
  rw [hl]
  simp [List.getLast?_append]

/-- C2 (amended): the returned `approxTokens` is always the measured count
of the last Stage-0/1 candidate; in particular, whenever it is within
budget (so Stage 2 did not fire) it equals the measured count of the
returned sequence.  When Stage 2 fires the returned nudge sequence is not
re-measured (see the counterexample). -/
theorem c2_approx_tokens_amended (tc : List Msg → Nat) (cm : CM) (u : Msg)
    (maxT kt : Nat) :
    ((buildPrompt tc cm u maxT kt).approxTokens ≤ maxT →
      (buildPrompt tc cm u maxT kt).approxTokens =
        tc (buildPrompt tc cm u maxT kt).messages) ∧
    ∃ j, j ≤ kt ∧ (buildPrompt tc cm u maxT kt).approxTokens =
      tc (candidate cm (getFactsAsBulletList cm.facts 30) j u) := by
  obtain ⟨j, hj, hcase⟩ := buildPrompt_cases tc cm u maxT kt
  rcases hcase with ⟨he, _⟩ | ⟨he, hover⟩
  · exact ⟨fun _ => by rw [he], ⟨j, hj, by rw [he]⟩⟩
  · constructor
    · intro hle
      rw [he] at hle
      exact absurd hle (not_le.mpr hover)
    · exact ⟨j, hj, by rw [he]⟩

/-- Witness for C2 (amended) at a concrete within-budget input. -/
theorem c2_approx_tokens_amended_witness :
    (buildPrompt contentLen ⟨[], [], "", []⟩ exUser 10 0).approxTokens =
      contentLen (buildPrompt contentLen ⟨[], [], "", []⟩ exUser 10 0).messages :=
  (c2_approx_tokens_amended contentLen ⟨[], [], "", []⟩ exUser 10 0).1 (by decide)

/-- C2 counterexample: with an empty state, a one-character user message,
budget 0 and `keepTurns = 0`, Stage 2 fires and the returned `approxTokens`
(the Stage-1 count, 1) differs from the measured count of the returned
nudge sequence. -/
theorem c2_counterexample :
    (buildPrompt contentLen ⟨[], [], "", []⟩ exUser 0 0).approxTokens ≠
      contentLen (buildPrompt contentLen ⟨[], [], "", []⟩ exUser 0 0).messages := by
  decide

/-- C1 (code-bug evaluation): with a three-message window, `keepTurns = 2`
and budget 0, the Stage-1 iteration that drives `k` to 0 rebuilds the
candidate with `window.slice(-Math.max(0, 0)) = slice(0)`, i.e. the WHOLE
window: the candidate handed to the Stage-2 check is
`exWindow3 ++ [exUser]` (4 messages, count 4), not a window-free prompt
(which would have count 1).  The spec says `slice` at `n ≤ 0` returns the
empty list, so the candidate should hold no window messages. -/
theorem c1_stage1_keeps_full_window :
    windowSlice exWindow3 0 = exWindow3 ∧
    stage1 List.length exCM1 "" exUser 0 2 2
        (candidate exCM1 "" 2 exUser) (List.length (candidate exCM1 "" 2 exUser)) =
      (exWindow3 ++ [exUser], 4, 0) ∧
    buildPrompt List.length exCM1 exUser 0 2 = ⟨stage2Prompt exCM1 "" exUser, 4⟩ := by
  decide

/-- C3 (code-bug evaluation): when Stage 2 fires, the source places the
nudge message immediately after the static prefix and BEFORE the summary
and facts segments (even though the nudge text says they are "above"); the
claimed order — summary, facts, then the nudge in the window's position —
is not what the code produces. -/
theorem c3_nudge_position :
    (buildPrompt List.length exCM2 exUser 0 0).messages =
      [⟨Role.system, "p"⟩, nudgeMsg,
       ⟨Role.system, "Session summary (compact):\ns"⟩,
       ⟨Role.system, "Key facts:\n- k: v"⟩, exUser] ∧
    (buildPrompt List.length exCM2 exUser 0 0).messages ≠
      [⟨Role.system, "p"⟩,
       ⟨Role.system, "Session summary (compact):\ns"⟩,
       ⟨Role.system, "Key facts:\n- k: v"⟩, nudgeMsg, exUser] := by
  decide

/-- C10: the facts segment of every prompt built by `buildPrompt` is
rendered through `getFactsAsBulletList` with the hard-coded default cap of
30 — at most 30 bullet lines regardless of how many facts the store holds —
and every returned sequence is a candidate or the Stage-2 prompt built
from exactly that 30-capped block. -/
theorem c10_facts_cap (tc : List Msg → Nat) (cm : CM) (u : Msg) (maxT kt : Nat) :
    (bulletItems cm.facts 30).length ≤ 30 ∧
    ((∃ j, j ≤ kt ∧ (buildPrompt tc cm u maxT kt).messages =
        candidate cm (getFactsAsBulletList cm.facts 30) j u) ∨
      (buildPrompt tc cm u maxT kt).messages =
        stage2Prompt cm (getFactsAsBulletList cm.facts 30) u) := by
  refine ⟨bulletItems_length_le cm.facts 30, ?_⟩
  obtain ⟨j, hj, hcase⟩ := buildPrompt_cases tc cm u maxT kt
  rcases hcase with ⟨he, _⟩ | ⟨he, _⟩
  · exact Or.inl ⟨j, hj, by rw [he]⟩
  · exact Or.inr (by rw [he])

/-! ### safeParseFacts (C9) -/

/-- C9 counterexample: the response string `"42"` is valid JSON but is not
a sequence of `{key, value}` records, yet `safeParseFacts` returns the
parsed number unvalidated — not the empty list.  The unvalidated value then
flows into `upsertFacts` at the call site. -/
theorem c9_counterexample :
    safeParseFacts "42" = Json.jnum "42" ∧
    isFactsList (Json.jnum "42") = false ∧
    Json.jnum "42" ≠ Json.jarr [] :=
  ⟨rfl, rfl, fun h => Json.noConfusion h⟩

/-- C9 (amended): `safeParseFacts` substitutes the empty list exactly when
`JSON.parse` throws (the string is not valid JSON), and it never raises;
a response that parses as JSON of the wrong shape is returned as parsed,
without validation (see the counterexample). -/
theorem c9_safe_parse_amended (s : String) (h : jsonParse s = none) :
    safeParseFacts s = Json.jarr [] := by
  simp [safeParseFacts, h]

/-- Witness for C9 (amended): a malformed extractor response maps to the
empty list. -/
theorem c9_safe_parse_amended_witness :
    safeParseFacts "not json" = Json.jarr [] :=
  c9_safe_parse_amended "not json" rfl

end ContextManager
